import Mathlib

/-!
# Verification of the typst compilation-context core (`crates/typst/src/engine.rs`)

This file embeds the `Route` chain (cycle detection and depth bounding with a
monotonically tightening `upper` cache cell) and the `Engine::delayed`
deferred-error combinator, and proves the specified properties about them.

Machine integers: Rust `usize` values are modelled as `Nat`, with the machine
bound `USIZEMAX = 2^64 - 1` made explicit where the code saturates or wraps.
The interior mutability of the `upper : Cell<usize>` field is modelled by
explicit state passing: `within` returns both its boolean answer and the
chain with its updated cache cells.
-/

/-- The largest value of a 64-bit `usize`; `Cell::new(usize::MAX)` stores it as
the "unknown" marker for the `upper` cache. -/
def USIZEMAX : Nat := 2 ^ 64 - 1

/-- `usize::saturating_add`: addition clamped to `usize::MAX`. -/
def satAdd (a b : Nat) : Nat := min (a + b) USIZEMAX

/-- The maximum stack nesting depth (`MAX_DEPTH` in the source). -/
def MAX_DEPTH : Nat := 64

/-- File identities are opaque; we model `FileId` as `Nat`. -/
abbrev FileId := Nat

/-- The data of one route segment: the optional module identity `id`, the
local depth contribution `len`, and the `upper : Cell<usize>` bound cache. -/
structure Frame where
  id : Option FileId
  len : Nat
  upper : Nat
  deriving Repr, DecidableEq

/-- A `Route` value together with its ancestor chain: `leaf` is a segment with
`outer = None`, `node f outer` a segment with `outer = Some outer`. -/
inductive Route where
  | leaf (frame : Frame)
  | node (frame : Frame) (outer : Route)
  deriving Repr, DecidableEq

/-- `Route::root()`: no parent, no id, `len = 0`, `upper = Cell::new(0)`. -/
def Route.root : Route := .leaf ⟨none, 0, 0⟩

/-- `Route::insert(outer, id)`: parent `outer`, identity `id`, `len = 0`,
`upper = Cell::new(usize::MAX)`. -/
def Route.insert (outer : Route) (id : FileId) : Route :=
  .node ⟨some id, 0, USIZEMAX⟩ outer

/-- `Route::extend(outer)`: parent `outer`, no identity, `len = 1`,
`upper = Cell::new(usize::MAX)`. -/
def Route.extend (outer : Route) : Route :=
  .node ⟨none, 1, USIZEMAX⟩ outer

/-- The frame data of the route segment itself (ignoring ancestors). -/
def Route.headFrame : Route → Frame
  | .leaf f => f
  | .node f _ => f

/-- Replace the segment's own frame, keeping the ancestor chain. -/
def Route.setHead : Route → Frame → Route
  | .leaf _, f => .leaf f
  | .node _ outer, f => .node f outer

/-- `Route::increase()`: `self.len += 1`. Release-mode `usize` addition wraps
modulo `2^64`. -/
def Route.increase (r : Route) : Route :=
  r.setHead { r.headFrame with len := (r.headFrame.len + 1) % 2 ^ 64 }

/-- `Route::decrease()`: `self.len -= 1`. The subtraction is unguarded;
release-mode `usize` subtraction wraps modulo `2^64`, so `0 - 1` underflows
to `usize::MAX`. -/
def Route.decrease (r : Route) : Route :=
  r.setHead { r.headFrame with len := (r.headFrame.len + USIZEMAX) % 2 ^ 64 }

/-- `Route::contains(id)`:
`self.id == Some(id) || self.outer.map_or(false, |outer| outer.contains(id))`. -/
def Route.contains : Route → FileId → Bool
  | .leaf f, i => f.id == some i || false
  | .node f outer, i => f.id == some i || Route.contains outer i

/-- The fast-accept test of `Route::within`:
`self.upper.get().saturating_add(self.len) <= depth`. -/
def fastAccept (upper len depth : Nat) : Bool :=
  decide (satAdd upper len ≤ depth)

/-- `Route::within(depth)`. The answer is the first component; the second is
the chain with the `upper` cells as the `Cell` writes leave them. The guard
`depth < self.len` makes the later `depth - self.len` a plain subtraction.
The source binds `let within = outer.within(depth - self.len)` once; being
pure, the call is written out at each of its uses here. -/
def Route.within : Route → Nat → Bool × Route
  | .leaf f, depth =>
    if fastAccept f.upper f.len depth then (true, .leaf f)
    else (true, .leaf f)
  | .node f outer, depth =>
    if fastAccept f.upper f.len depth then (true, .node f outer)
    else if depth < f.len then (false, .node f outer)
    else if (Route.within outer (depth - f.len)).1 ∧ depth < f.upper then
      ((Route.within outer (depth - f.len)).1,
        .node { f with upper := depth } (Route.within outer (depth - f.len)).2)
    else
      ((Route.within outer (depth - f.len)).1, .node f (Route.within outer (depth - f.len)).2)

/-- `Route::exceeding()`: `!self.within(MAX_DEPTH)` (the `upper`-cell effect of
the inner `within` call is invisible through the boolean result). -/
def Route.exceeding (r : Route) : Bool :=
  !(Route.within r MAX_DEPTH).1

/-- The true nesting depth of a chain: the sum of `len` over every frame from
self to the root. -/
def Route.totalLen : Route → Nat
  | .leaf f => f.len
  | .node f outer => f.len + Route.totalLen outer

/-- The `(id, len)` data of every frame from self to the root: everything about
a chain except the state of the `upper` cache cells. -/
def Route.skeleton : Route → List (Option FileId × Nat)
  | .leaf f => [(f.id, f.len)]
  | .node f outer => (f.id, f.len) :: Route.skeleton outer

/-- Soundness of the `upper` cache cells: at every frame that has a parent,
either `upper` is the unknown marker `usize::MAX`, or the true total depth of
the ancestor chain is at most `upper`; and the parentless frame has `len = 0`
(its constructed value, restored whenever `increase`/`decrease` are balanced). -/
def Route.validB : Route → Bool
  | .leaf f => f.len == 0
  | .node f outer =>
    (f.upper == USIZEMAX || decide (Route.totalLen outer ≤ f.upper))
      && Route.validB outer

/-- `r'` differs from `r` at most by `upper` cells that stayed equal or
strictly decreased: ids, lens and the shape are unchanged. -/
def Route.tightens : Route → Route → Prop
  | .leaf f, .leaf g => g = f
  | .node f o, .node g o' =>
    g.id = f.id ∧ g.len = f.len ∧ (g.upper = f.upper ∨ g.upper < f.upper) ∧
      Route.tightens o o'
  | _, _ => False

/-- Chains produced by the three constructors, before any `increase` /
`decrease` / `within` activity. -/
inductive Route.Built : Route → Prop
  | root : Route.Built Route.root
  | insert (o : Route) (i : FileId) : Route.Built o → Route.Built (Route.insert o i)
  | extend (o : Route) : Route.Built o → Route.Built (Route.extend o)

/-- A chain of `k` nested `extend` frames above `root()`. -/
def extendChain : Nat → Route
  | 0 => Route.root
  | k + 1 => Route.extend (extendChain k)

/-! ## The heap model for `track`

`Route::track` is about handle identity (`Tracked<Route>` wraps a reference),
which a value model cannot express. We model addresses explicitly: a node
stores the address of its parent handle, and `track` returns an address. -/

/-- The fields of a route node that `track` inspects, with `outer` as the
address of the parent handle (or `none`). -/
structure RouteNode where
  outer : Option Nat
  id : Option FileId
  len : Nat
  deriving Repr, DecidableEq

/-- `Route::track()` at address `selfAddr`: if the segment has a parent, no
identity and zero local depth, return the parent handle stored in `outer`;
otherwise `Track::track(self)`, a handle to the node itself. -/
def RouteNode.track (n : RouteNode) (selfAddr : Nat) : Nat :=
  match n.outer with
  | some outer => if n.id = none ∧ n.len = 0 then outer else selfAddr
  | none => selfAddr

/-! ## The deferred-error combinator -/

/-- A diagnostic is opaque; an error batch is a list of diagnostics. -/
abbrev ErrorBatch := List Nat

/-- The part of the `Tracer` sink that `Engine::delayed` touches: the bucket of
deferred error batches. -/
structure Tracer where
  deferred : List ErrorBatch
  deriving Repr, DecidableEq

/-- Modelled from the spec: `Tracer::delay` is outside the provided source
(`crate::eval::Tracer`); the spec says it "records the produced error batch
into the diagnostics sink's deferred bucket", so it appends the one batch. -/
def Tracer.delay (t : Tracer) (errors : ErrorBatch) : Tracer :=
  { t with deferred := t.deferred ++ [errors] }

/-- The part of `Engine` that `delayed` touches. -/
structure EngineState where
  tracer : Tracer
  deriving Repr, DecidableEq

/-- `Engine::delayed(f)`: run the fallible step `f` on the engine; on `Ok(v)`
return `v`, on `Err(errors)` record the batch with `self.tracer.delay(errors)`
and return `T::default()` (Rust `Default` modelled by `Inhabited.default`). -/
def EngineState.delayed {T : Type} [Inhabited T] (e : EngineState)
    (f : EngineState → Except ErrorBatch T × EngineState) : T × EngineState :=
  match f e with
  | (.ok value, e') => (value, e')
  | (.error errors, e') => (default, { e' with tracer := e'.tracer.delay errors })

/-! ## Helper lemmas -/

lemma within_leaf_fst (f : Frame) (d : Nat) : (Route.within (.leaf f) d).1 = true := by
  unfold Route.within
  split <;> rfl

lemma within_complete (r : Route) (d : Nat) (h : r.totalLen ≤ d) :
    (Route.within r d).1 = true := by
  induction r generalizing d with
  | leaf f => exact within_leaf_fst f d
  | node f o ih =>
    simp only [Route.totalLen] at h
    unfold Route.within
    split_ifs with h1 h2 h3
    · rfl
    · omega
    · simpa using h3.1
    · simpa using ih (d - f.len) (by omega)

lemma within_sound (r : Route) (d : Nat) (hv : r.validB = true)
    (hb : r.totalLen ≤ USIZEMAX) (hw : (Route.within r d).1 = true) :
    r.totalLen ≤ d := by
  induction r generalizing d with
  | leaf f =>
    simp only [Route.validB, beq_iff_eq] at hv
    simp [Route.totalLen, hv]
  | node f o ih =>
    simp only [Route.validB, Bool.and_eq_true, Bool.or_eq_true, beq_iff_eq,
      decide_eq_true_eq] at hv
    simp only [Route.totalLen] at hb ⊢
    unfold Route.within at hw
    split_ifs at hw with h1 h2 h3
    · simp only [fastAccept, satAdd, decide_eq_true_eq] at h1
      rcases hv.1 with h | h <;> omega
    · have hr := ih (d - f.len) hv.2 (by omega) h3.1
      omega
    · have hr := ih (d - f.len) hv.2 (by omega) hw
      omega

lemma within_totalLen (r : Route) (d : Nat) :
    (Route.within r d).2.totalLen = r.totalLen := by
  induction r generalizing d with
  | leaf f => unfold Route.within; split <;> rfl
  | node f o ih =>
    unfold Route.within
    split_ifs with h1 h2 h3 <;> simp [Route.totalLen, ih]

lemma within_skeleton (r : Route) (d : Nat) :
    (Route.within r d).2.skeleton = r.skeleton := by
  induction r generalizing d with
  | leaf f => unfold Route.within; split <;> rfl
  | node f o ih =>
    unfold Route.within
    split_ifs with h1 h2 h3 <;> simp [Route.skeleton, ih]

lemma within_valid (r : Route) (d : Nat) (hv : r.validB = true)
    (hb : r.totalLen ≤ USIZEMAX) :
    (Route.within r d).2.validB = true := by
  induction r generalizing d with
  | leaf f => unfold Route.within; split <;> exact hv
  | node f o ih =>
    simp only [Route.validB, Bool.and_eq_true, Bool.or_eq_true, beq_iff_eq,
      decide_eq_true_eq] at hv
    simp only [Route.totalLen] at hb
    unfold Route.within
    split_ifs with h1 h2 h3
    · simp only [Route.validB, Bool.and_eq_true, Bool.or_eq_true, beq_iff_eq,
        decide_eq_true_eq]
      exact ⟨hv.1, hv.2⟩
    · simp only [Route.validB, Bool.and_eq_true, Bool.or_eq_true, beq_iff_eq,
        decide_eq_true_eq]
      exact ⟨hv.1, hv.2⟩
    · have hs := within_sound o (d - f.len) hv.2 (by omega) h3.1
      simp only [Route.validB, Bool.and_eq_true, Bool.or_eq_true, beq_iff_eq,
        decide_eq_true_eq, within_totalLen]
      exact ⟨Or.inr (by omega), ih (d - f.len) hv.2 (by omega)⟩
    · simp only [Route.validB, Bool.and_eq_true, Bool.or_eq_true, beq_iff_eq,
        decide_eq_true_eq, within_totalLen]
      exact ⟨hv.1, ih (d - f.len) hv.2 (by omega)⟩

lemma tightens_refl (r : Route) : Route.tightens r r := by
  induction r with
  | leaf f => simp [Route.tightens]
  | node f o ih => exact ⟨rfl, rfl, Or.inl rfl, ih⟩

lemma within_tightens_lemma (r : Route) (d : Nat) :
    Route.tightens r (Route.within r d).2 := by
  induction r generalizing d with
  | leaf f => unfold Route.within; split <;> simp [Route.tightens]
  | node f o ih =>
    unfold Route.within
    split_ifs with h1 h2 h3
    · exact tightens_refl _
    · exact tightens_refl _
    · exact ⟨rfl, rfl, Or.inr h3.2, ih _⟩
    · exact ⟨rfl, rfl, Or.inl rfl, ih _⟩

lemma skeleton_ne_nil (r : Route) : r.skeleton ≠ [] := by
  cases r <;> simp [Route.skeleton]

lemma totalLen_eq_of_skeleton (r r' : Route) (h : r.skeleton = r'.skeleton) :
    r.totalLen = r'.totalLen := by
  induction r generalizing r' with
  | leaf f =>
    cases r' with
    | leaf g =>
      simp only [Route.skeleton, List.cons.injEq, Prod.mk.injEq] at h
      simp [Route.totalLen, h.1.2]
    | node g o' =>
      simp only [Route.skeleton, List.cons.injEq] at h
      exact absurd h.2.symm (skeleton_ne_nil o')
  | node f o ih =>
    cases r' with
    | leaf g =>
      simp only [Route.skeleton, List.cons.injEq] at h
      exact absurd h.2 (skeleton_ne_nil o)
    | node g o' =>
      simp only [Route.skeleton, List.cons.injEq, Prod.mk.injEq] at h
      simp [Route.totalLen, h.1.2, ih o' h.2]

lemma built_valid (r : Route) (h : Route.Built r) : r.validB = true := by
  induction h with
  | root => rfl
  | insert o i ho ih => simp [Route.insert, Route.validB, ih]
  | extend o ho ih => simp [Route.extend, Route.validB, ih]

lemma extendChain_totalLen (k : Nat) : (extendChain k).totalLen = k := by
  induction k with
  | zero => rfl
  | succ k ih =>
    simp only [extendChain, Route.extend, Route.totalLen, ih]
    omega

lemma extendChain_built (k : Nat) : Route.Built (extendChain k) := by
  induction k with
  | zero => exact Route.Built.root
  | succ k ih => exact Route.Built.extend _ ih

lemma within_eq_decide (r : Route) (d : Nat) (hv : r.validB = true)
    (hb : r.totalLen ≤ USIZEMAX) :
    (Route.within r d).1 = decide (r.totalLen ≤ d) := by
  by_cases h : r.totalLen ≤ d
  · rw [within_complete r d h]
    simp [h]
  · cases hq : (Route.within r d).1 with
    | false => simp [h]
    | true => exact absurd (within_sound r d hv hb hq) h

lemma extendChain_within (k d : Nat) (hk : k ≤ USIZEMAX) :
    (Route.within (extendChain k) d).1 = decide (k ≤ d) := by
  have hv := built_valid _ (extendChain_built k)
  have hb : (extendChain k).totalLen ≤ USIZEMAX := by
    rw [extendChain_totalLen]; exact hk
  rw [within_eq_decide _ d hv hb, extendChain_totalLen]

lemma headFrame_setHead (r : Route) (g : Frame) : (r.setHead g).headFrame = g := by
  cases r <;> rfl

/-! ## The claims -/

/-- C1: Cache transparency of the depth check. In any sound cache state — as
produced by `root`/`insert`/`extend` with `increase`/`decrease` balanced at
query time, and preserved by every `within` query — `within d` answers true iff
the sum of the `len` fields from self to the root is at most `d`, and the
answer agrees with that of any other sound cache state over the same frames,
i.e. it does not depend on which `within` queries tightened the `upper` cells
before. `totalLen r ≤ USIZEMAX` is the machine bound: more than `usize::MAX`
total frames cannot exist in a 64-bit address space. -/
theorem within_cache_transparent (r : Route) (d : Nat)
    (hv : r.validB = true) (hb : r.totalLen ≤ USIZEMAX) :
    ((Route.within r d).1 = true ↔ r.totalLen ≤ d)
    ∧ ∀ r', r'.validB = true → r'.skeleton = r.skeleton →
        (Route.within r' d).1 = (Route.within r d).1 := by
  constructor
  · exact ⟨within_sound r d hv hb, within_complete r d⟩
  · intro r' hv' hsk
    have ht := totalLen_eq_of_skeleton r' r hsk
    rw [within_eq_decide r d hv hb, within_eq_decide r' d hv' (by omega), ht]

/-- Witness for C1 at a concrete chain: two `extend` frames above `root`,
budget 3. -/
theorem within_cache_transparent_witness :
    (Route.within (extendChain 2) 3).1 = true :=
  (within_cache_transparent (extendChain 2) 3 (by decide) (by decide)).1.mpr
    (by decide)

/-- C2: Cycle detection: `contains id` is true iff `id` occurs as the `id`
field of some frame on the path from self to the root (the skeleton's
identity column); in particular it is false for an id on no frame. -/
theorem contains_iff_on_path (r : Route) (i : FileId) :
    Route.contains r i = true ↔ some i ∈ r.skeleton.map Prod.fst := by
  induction r with
  | leaf f =>
    simp [Route.contains, Route.skeleton]
    exact eq_comm
  | node f o ih =>
    simp [Route.contains, Route.skeleton, ih]
    exact or_congr eq_comm Iff.rfl

/-- C3: Deferred-error combinator: a successful step's value is returned with
the deferred bucket exactly as the step left it; a failing step's error batch
is appended to the deferred bucket as one batch and the default value is
returned. -/
theorem delayed_spec {T : Type} [Inhabited T] (e e' : EngineState)
    (f : EngineState → Except ErrorBatch T × EngineState) :
    (∀ v, f e = (Except.ok v, e') → e.delayed f = (v, e'))
    ∧ (∀ errs, f e = (Except.error errs, e') →
        e.delayed f = ((default : T), ⟨⟨e'.tracer.deferred ++ [errs]⟩⟩)) := by
  constructor
  · intro v h
    simp [EngineState.delayed, h]
  · intro errs h
    simp [EngineState.delayed, h, Tracer.delay]

/-- Witness for C3: a succeeding and a failing step on an empty sink. -/
theorem delayed_spec_witness :
    EngineState.delayed ⟨⟨[]⟩⟩ (fun e => (Except.ok (5 : Nat), e)) = (5, ⟨⟨[]⟩⟩)
    ∧ EngineState.delayed ⟨⟨[]⟩⟩ (fun e => (Except.error [7], e))
      = ((default : Nat), ⟨⟨[[7]]⟩⟩) :=
  ⟨(delayed_spec ⟨⟨[]⟩⟩ ⟨⟨[]⟩⟩ _).1 5 rfl, (delayed_spec ⟨⟨[]⟩⟩ ⟨⟨[]⟩⟩ _).2 [7] rfl⟩

/-- C4: Chain-collapsing in `track`: a frame with a parent, no identity and
zero local depth yields exactly the parent handle stored in its `outer` field
(the same address, not a copy); every other frame yields a handle to itself. -/
theorem track_collapsing (n : RouteNode) (a : Nat) :
    (∀ o, n.outer = some o → n.id = none → n.len = 0 → n.track a = o)
    ∧ ((n.outer = none ∨ n.id ≠ none ∨ n.len ≠ 0) → n.track a = a) := by
  constructor
  · intro o ho hid hlen
    simp [RouteNode.track, ho, hid, hlen]
  · intro h
    cases ho : n.outer with
    | none => simp [RouteNode.track, ho]
    | some o =>
      rcases h with h | h | h
      · rw [ho] at h; exact absurd h (by simp)
      · simp [RouteNode.track, ho, h]
      · simp [RouteNode.track, ho, h]

/-- Witness for C4: the collapsible node at address 3 returns its parent's
address 7; changing only `len` to 1 makes it return its own address 3. -/
theorem track_collapsing_witness :
    RouteNode.track ⟨some 7, none, 0⟩ 3 = 7
    ∧ RouteNode.track ⟨some 7, none, 1⟩ 3 = 3 :=
  ⟨(track_collapsing ⟨some 7, none, 0⟩ 3).1 7 rfl rfl rfl,
    (track_collapsing ⟨some 7, none, 1⟩ 3).2 (Or.inr (Or.inr (by decide)))⟩

/-- C5: Soundness and monotone tightening of the `upper` cache: constructed
chains satisfy the cache invariant `validB` (every finite `upper` bounds the
ancestors' true total depth); a `within` query preserves the invariant, and
changes each `upper` cell only by strictly decreasing it (`tightens`), so an
`upper` value is only ever a proven bound, never a guess, and never loosened. -/
theorem upper_cache_sound_monotone (r : Route) (d : Nat)
    (hv : r.validB = true) (hb : r.totalLen ≤ USIZEMAX) :
    (∀ r₀, Route.Built r₀ → r₀.validB = true)
    ∧ (Route.within r d).2.validB = true
    ∧ Route.tightens r (Route.within r d).2 :=
  ⟨fun r₀ h => built_valid r₀ h, within_valid r d hv hb, within_tightens_lemma r d⟩

/-- Witness for C5 at one `extend` frame above `root`, budget 2. -/
theorem upper_cache_sound_monotone_witness :
    (Route.within (extendChain 1) 2).2.validB = true :=
  (upper_cache_sound_monotone (extendChain 1) 2 (by decide) (by decide)).2.1

/-- C6: `within` is monotone in its budget: in any cache state whatsoever, a
true answer at budget `d` stays true at any budget `d' ≥ d`. -/
theorem within_monotone (r : Route) (d d' : Nat) (hd : d ≤ d')
    (hw : (Route.within r d).1 = true) : (Route.within r d').1 = true := by
  induction r generalizing d d' with
  | leaf f => exact within_leaf_fst f d'
  | node f o ih =>
    unfold Route.within at hw ⊢
    split_ifs at hw with h1 h2 h3
    · have h1' : fastAccept f.upper f.len d' = true := by
        simp only [fastAccept, decide_eq_true_eq] at h1 ⊢
        omega
      simp [h1']
    · have hrec := ih (d - f.len) (d' - f.len) (by omega) h3.1
      split_ifs with g1 g2 g3
      · rfl
      · exfalso; omega
      · exact hrec
      · exact hrec
    · have hrec := ih (d - f.len) (d' - f.len) (by omega) hw
      split_ifs with g1 g2 g3
      · rfl
      · exfalso; omega
      · exact hrec
      · exact hrec

/-- Witness for C6: true at budget 3 on three `extend` frames, hence true
at budget 5. -/
theorem within_monotone_witness : (Route.within (extendChain 3) 5).1 = true :=
  within_monotone (extendChain 3) 3 5 (by decide) (by decide)

/-- C7: A parentless frame passes the depth check at every budget, whatever
its current `len` (e.g. after unbalanced `increase` calls) and whatever its
`upper` cell holds. -/
theorem parentless_within (f : Frame) (d : Nat) :
    (Route.within (Route.leaf f) d).1 = true :=
  within_leaf_fst f d

/-- C8: Concrete depth scenarios: `k` nested `extend` frames above `root()`
satisfy `within d` iff `k ≤ d` (for any `k` that fits in memory); three
extends give `within 3` but not `within 2`; `exceeding` is false for `root()`
and 64 extends, true for 65 extends. -/
theorem depth_scenarios :
    (∀ k d, k ≤ USIZEMAX → ((Route.within (extendChain k) d).1 = true ↔ k ≤ d))
    ∧ (Route.within (extendChain 3) 3).1 = true
    ∧ (Route.within (extendChain 3) 2).1 = false
    ∧ Route.exceeding Route.root = false
    ∧ Route.exceeding (extendChain 64) = false
    ∧ Route.exceeding (extendChain 65) = true := by
  refine ⟨fun k d hk => by rw [extendChain_within k d hk]; simp, ?_, ?_, ?_, ?_, ?_⟩
  · rw [extendChain_within 3 3 (by decide)]
    decide
  · rw [extendChain_within 3 2 (by decide)]
    decide
  · decide
  · simp [Route.exceeding, MAX_DEPTH, extendChain_within 64 64 (by decide)]
  · simp [Route.exceeding, MAX_DEPTH, extendChain_within 65 64 (by decide)]

/-- Witness for C8's quantified part at `k = 2`, `d = 2`. -/
theorem depth_scenarios_witness : (Route.within (extendChain 2) 2).1 = true :=
  (depth_scenarios.1 2 2 (by decide)).mpr (by decide)

/-- C9: `decrease` decrements `len` by one exactly when `len ≥ 1`, and
`increase` then `decrease` restores `len`; at `len = 0` the unguarded
subtraction underflows the unsigned counter to `usize::MAX` — it neither
saturates at zero nor reports an error — so `len ≥ 1` is a necessary
precondition. -/
theorem decrease_totality (r : Route) :
    (1 ≤ r.headFrame.len → r.headFrame.len ≤ USIZEMAX →
      r.decrease.headFrame.len = r.headFrame.len - 1)
    ∧ (r.headFrame.len ≤ USIZEMAX →
      r.increase.decrease.headFrame.len = r.headFrame.len)
    ∧ (r.headFrame.len = 0 → r.decrease.headFrame.len = USIZEMAX) := by
  refine ⟨?_, ?_, ?_⟩ <;>
    simp only [Route.decrease, Route.increase, headFrame_setHead, USIZEMAX] <;>
    intro h1 <;> first
      | (intro h2; omega)
      | omega

/-- Witness for C9: decrementing one `extend` frame reaches 0; a balanced
pair on `root` restores 0; decrementing `root` underflows to `usize::MAX`. -/
theorem decrease_totality_witness :
    (Route.decrease (extendChain 1)).headFrame.len = 0
    ∧ Route.root.increase.decrease.headFrame.len = 0
    ∧ (Route.decrease Route.root).headFrame.len = USIZEMAX :=
  ⟨(decrease_totality (extendChain 1)).1 (by decide) (by decide),
    (decrease_totality Route.root).2.1 (by decide),
    (decrease_totality Route.root).2.2 rfl⟩

/-- C10: The fast-accept test uses saturating addition: with `upper` at the
"unknown" marker `usize::MAX` it cannot fire at any finite budget for any
`len`, and whenever `upper + len` does not overflow it is exactly the exact
integer comparison `upper + len ≤ depth`. -/
theorem fastAccept_saturating (u l d : Nat) :
    (u = USIZEMAX → d < USIZEMAX → fastAccept u l d = false)
    ∧ (u + l ≤ USIZEMAX → fastAccept u l d = decide (u + l ≤ d)) := by
  constructor
  · intro hu hd
    simp only [fastAccept, satAdd, hu, decide_eq_false_iff_not]
    omega
  · intro h
    have hs : satAdd u l = u + l := by
      simp only [satAdd]
      omega
    simp [fastAccept, hs]

/-- Witness for C10: an unknown `upper` rejects at budget 5; a small `upper`
reduces to the exact comparison. -/
theorem fastAccept_saturating_witness :
    fastAccept USIZEMAX 0 5 = false ∧ fastAccept 3 1 5 = decide (3 + 1 ≤ 5) :=
  ⟨(fastAccept_saturating USIZEMAX 0 5).1 rfl (by decide),
    (fastAccept_saturating 3 1 5).2 (by decide)⟩
